import Mathlib

/-!
Verification of the gh-host static-site generator core (main.go).

Strings are modelled as lists of characters (`Str`); a file's text is a
list of lines, matching the line-by-line processing done by the Go code
(bufio.Scanner in readPost, strings.Split in the update action).
-/

set_option maxHeartbeats 1000000

abbrev Str := List Char

/-- The delimiter text checked by readPost: strings.HasPrefix(line, "---"). -/
def delim : Str := ['-', '-', '-']

/-- State of the scanner loop in readPost (main.go lines 270-295):
the accumulated frontmatter and content lines, the inFrontmatter flag
and the number of delimiter-prefixed lines seen so far. -/
structure SplitState where
  frontmatter : List Str
  content : List Str
  inFrontmatter : Bool
  count : Nat
deriving DecidableEq

/-- Initial state of the readPost scanner loop. -/
def initSplit : SplitState :=
  { frontmatter := [], content := [], inFrontmatter := false, count := 0 }

/-- One iteration of the readPost scanner loop (main.go lines 276-295):
a line with prefix "---" bumps the counter; the first such line turns
the inFrontmatter flag on and is skipped, the second turns it off and is
skipped; every other line is appended to frontmatter or content
according to the flag. -/
def splitStep (s : SplitState) (line : Str) : SplitState :=
  if delim.isPrefixOf line then
    if s.count + 1 = 1 then
      { s with count := s.count + 1, inFrontmatter := true }
    else if s.count + 1 = 2 then
      { s with count := s.count + 1, inFrontmatter := false }
    else if s.inFrontmatter then
      { s with count := s.count + 1, frontmatter := s.frontmatter ++ [line] }
    else
      { s with count := s.count + 1, content := s.content ++ [line] }
  else
    if s.inFrontmatter then
      { s with frontmatter := s.frontmatter ++ [line] }
    else
      { s with content := s.content ++ [line] }

/-- The whole readPost scanner loop over the lines of a file. -/
def splitRun (lines : List Str) : SplitState :=
  lines.foldl splitStep initSplit

/-- Metadata decoded from the frontmatter block: the yaml-tagged fields
of the Post struct (main.go lines 196-203). -/
structure Meta where
  title : Str
  date : Str
  tags : List Str
deriving DecidableEq

/-- The zero value yaml.Unmarshal starts from: empty strings, no tags. -/
def defaultMeta : Meta := ⟨[], [], []⟩

/-- Whitespace trimming around yaml scalar values (spaces only: the
creation-time encoding never emits tabs). -/
def yamlTrim (s : Str) : Str :=
  ((s.dropWhile (fun c => c = ' ')).reverse.dropWhile (fun c => c = ' ')).reverse

/-- The yaml key of the Title field. -/
def titleKey : Str := ['t', 'i', 't', 'l', 'e', ':']

/-- The yaml key of the Date field. -/
def dateKey : Str := ['d', 'a', 't', 'e', ':']

/-- The yaml key of the Tags field. -/
def tagsKey : Str := ['t', 'a', 'g', 's', ':']

/-- Splitting a flow-sequence body at commas. -/
def splitComma : Str → List Str
  | [] => [[]]
  | c :: rest =>
    if c = ',' then [] :: splitComma rest
    else
      match splitComma rest with
      | [] => [[c]]
      | g :: gs => (c :: g) :: gs

/-- The error text produced for a metadata block that is not a key-value
mapping or whose tags value is not a sequence. -/
def yamlErr : Str := ['y', 'a', 'm', 'l', ':', ' ', 'e', 'r', 'r', 'o', 'r']

/-- Modelled from the spec: the tags part of the Metadata Decoder.  The
source delegates to yaml.Unmarshal (gopkg.in/yaml.v2, an external library
not under src/); per the spec, tags decodes to an ordered sequence of
strings from a flow sequence like [a, b], and a value that is not a
sequence is structurally invalid. -/
def parseTagsValue (raw : Str) : Except Str (List Str) :=
  let v := yamlTrim raw
  if v.head? = some '[' ∧ v.getLast? = some ']' ∧ 2 ≤ v.length then
    let inner := (v.drop 1).dropLast
    if yamlTrim inner = [] then .ok []
    else .ok ((splitComma inner).map yamlTrim)
  else .error yamlErr

/-- Modelled from the spec: one line of the Metadata Decoder.  The source
delegates to yaml.Unmarshal on the Post struct; per the spec the decoder
reads a key-value document, fills title, date and tags, ignores unknown
keys, and fails only on structurally invalid lines (a non-empty line
that is no key-value pair). -/
def decodeLine (m : Meta) (line : Str) : Except Str Meta :=
  if titleKey.isPrefixOf line then
    .ok { m with title := yamlTrim (line.drop titleKey.length) }
  else if dateKey.isPrefixOf line then
    .ok { m with date := yamlTrim (line.drop dateKey.length) }
  else if tagsKey.isPrefixOf line then
    match parseTagsValue (line.drop tagsKey.length) with
    | .ok ts => .ok { m with tags := ts }
    | .error e => .error e
  else if line.contains ':' then .ok m
  else if yamlTrim line = [] then .ok m
  else .error yamlErr

/-- Modelled from the spec: the Metadata Decoder over the whole
frontmatter block, starting from the zero value of the Post struct. -/
def decodeMeta (lines : List Str) : Except Str Meta :=
  lines.foldlM decodeLine defaultMeta

/-- Structural validity of one metadata line: exactly the lines on which
decodeLine does not fail. -/
def lineOk (l : Str) : Bool :=
  if titleKey.isPrefixOf l then true
  else if dateKey.isPrefixOf l then true
  else if tagsKey.isPrefixOf l then
    match parseTagsValue (l.drop tagsKey.length) with
    | .ok _ => true
    | .error _ => false
  else if l.contains ':' then true
  else decide (yamlTrim l = [])

/-- Joining strings with a one-character separator (strings.Join). -/
def joinSep (sep : Char) : List Str → Str
  | [] => []
  | [t] => t
  | t :: t2 :: ts => t ++ sep :: joinSep sep (t2 :: ts)

/-- The metadata lines written by the create action (main.go lines
64-70): title: t, date: d, tags: [comma-separated]. -/
def encodeMetaLines (title date : Str) (tags : List Str) : List Str :=
  [titleKey ++ ' ' :: title,
   dateKey ++ ' ' :: date,
   tagsKey ++ ' ' :: '[' :: (joinSep ',' tags ++ [']'])]

/-- The whole file written by the create action: delimiter, metadata
lines, delimiter, a blank line, then the body. -/
def createFileLines (title date : Str) (tags : List Str) (body : List Str) : List Str :=
  delim :: encodeMetaLines title date tags ++ delim :: [] :: body

/-- Go strings.TrimSuffix. -/
def goTrimSuffix (s suf : Str) : Str :=
  if suf.isSuffixOf s then s.take (s.length - suf.length) else s

/-- Go strings.TrimPrefix. -/
def goTrimPrefix (s pre : Str) : Str :=
  if pre.isPrefixOf s then s.drop pre.length else s

/-- The markup extension recognized by readPosts and stripped by
readPost. -/
def mdExt : Str := ['.', 'm', 'd']

/-- The content root directory. -/
def postsDir : Str := ['c', 'o', 'n', 't', 'e', 'n', 't', '/', 'p', 'o', 's', 't', 's']

/-- Slug derivation in readPost (main.go lines 304-305): strip the .md
suffix, then the content/posts/ prefix. -/
def slugOf (path : Str) : Str :=
  goTrimPrefix (goTrimSuffix path mdExt) (postsDir ++ ['/'])

/-- The path of a source file with the given stem, as built by readPosts
from the content directory and the entry name. -/
def mkPostPath (stem : Str) : Str :=
  (postsDir ++ ['/']) ++ (stem ++ mdExt)

/-- The Post struct (main.go lines 196-203). -/
structure Post where
  title : Str
  date : Str
  tags : List Str
  content : Str
  slug : Str
  baseURL : Str
deriving DecidableEq

/-- readPost (main.go lines 263-309): split the file's lines, decode the
frontmatter, render the joined body with the external markdown converter
(the pure function md), and set slug and base URL. -/
def readPost (md : Str → Str) (fileName : Str) (baseURL : Str) (lines : List Str) : Except Str Post :=
  match decodeMeta (splitRun lines).frontmatter with
  | .error e => .error e
  | .ok m =>
    .ok { title := m.title, date := m.date, tags := m.tags,
          content := md (joinSep '\n' (splitRun lines).content),
          slug := slugOf fileName, baseURL := baseURL }

/-- One entry of a directory listing, as seen by readPosts. -/
structure DirEntry where
  name : Str
  isDir : Bool
deriving DecidableEq

/-- The filter in readPosts (main.go line 251): not a directory and the
name ends in .md. -/
def selectEntry (f : DirEntry) : Bool :=
  !f.isDir && mdExt.isSuffixOf f.name

/-- The path handed to readPost: dir/name (main.go line 252). -/
def filePath (dir name : Str) : Str := dir ++ '/' :: name

/-- The loop of readPosts, with rp abstracting readPost applied to the
file system: the first failing file aborts the whole run. -/
def readPostsLoop (dir : Str) (rp : Str → Except Str Post) : List DirEntry → List Post → Except Str (List Post)
  | [], acc => .ok acc
  | f :: fs, acc =>
    if selectEntry f then
      match rp (filePath dir f.name) with
      | .error e => .error e
      | .ok p => readPostsLoop dir rp fs (acc ++ [p])
    else readPostsLoop dir rp fs acc

/-- readPosts (main.go lines 242-261): a failing directory read aborts;
otherwise every matching entry is read in listing order. -/
def readPosts (dir : Str) (dirListing : Except Str (List DirEntry)) (rp : Str → Except Str Post) : Except Str (List Post) :=
  match dirListing with
  | .error e => .error e
  | .ok files => readPostsLoop dir rp files []

/-- One map update in generateTags: tags[tag] = append(tags[tag], post)
(main.go line 370). -/
def addTag (p : Post) (m : Str → List Post) (tag : Str) : Str → List Post :=
  fun t => if t = tag then m t ++ [p] else m t

/-- The inner loop of generateTags: append the post under each of its
tags in order. -/
def insertPost (m : Str → List Post) (p : Post) : Str → List Post :=
  p.tags.foldl (addTag p) m

/-- The tags map built by generateTags (main.go lines 367-372), as the
function from a tag to its group. -/
def tagGroups (posts : List Post) : Str → List Post :=
  posts.foldl insertPost (fun _ => [])

/-- The distinct tags over which generateTags writes one page each, in
first-appearance order (Go map iteration order is unspecified; the set
of keys is this set). -/
def distinctTags (posts : List Post) : List Str :=
  (posts.foldr (fun p acc => p.tags ++ acc) []).dedup

/-- The three externally supplied template families, each a pure
function of its data context. -/
structure Templates where
  renderPost : Post → Str
  renderIndex : List Post → Str → Str
  renderTag : Str → List Post → Str → Str

/-- Output document name for the index page. -/
def outIndexName : Str := "output/index.html".toList

/-- Output document name for one post page. -/
def outPostName (slug : Str) : Str := "output/".toList ++ slug ++ ".html".toList

/-- Output document name for one tag page. -/
def outTagName (tag : Str) : Str := "output/tag-".toList ++ tag ++ ".html".toList

/-- The output documents written by one generation run: one per post
(generatePosts), the index (generateIndex) and one per distinct tag
(generateTags). -/
def composeDocs (tmpl : Templates) (baseURL : Str) (posts : List Post) : List (Str × Str) :=
  posts.map (fun p => (outPostName p.slug, tmpl.renderPost p))
    ++ [(outIndexName, tmpl.renderIndex posts baseURL)]
    ++ (distinctTags posts).map
        (fun t => (outTagName t, tmpl.renderTag t (tagGroups posts t) baseURL))

/-- The file system as one generation run sees it: the content files
(name and lines) and the output documents (name and text). -/
structure SiteState where
  contentFiles : List (Str × List Str)
  outputFiles : List (Str × Str)
deriving DecidableEq

/-- Reading every .md content file into a Post, in order, fail-fast:
readPosts specialised to the stored content files. -/
def postsOfLoop (md : Str → Str) (baseURL : Str) : List (Str × List Str) → List Post → Except Str (List Post)
  | [], acc => .ok acc
  | f :: fs, acc =>
    if mdExt.isSuffixOf f.1 then
      match readPost md (filePath postsDir f.1) baseURL f.2 with
      | .error e => .error e
      | .ok p => postsOfLoop md baseURL fs (acc ++ [p])
    else postsOfLoop md baseURL fs acc

/-- One full generation run (the second main, main.go lines 205-240):
read all posts from the content files, then replace the output documents
with the composed set.  The content files are only read. -/
def generateRun (md : Str → Str) (tmpl : Templates) (baseURL : Str) (s : SiteState) : Except Str SiteState :=
  match postsOfLoop md baseURL s.contentFiles [] with
  | .error e => .error e
  | .ok posts => .ok { s with outputFiles := composeDocs tmpl baseURL posts }

theorem splitStep_acc (f c : List Str) (m : Bool) (k : Nat) (l : Str) :
    splitStep ⟨f, c, m, k⟩ l =
      ⟨f ++ (splitStep ⟨[], [], m, k⟩ l).frontmatter,
       c ++ (splitStep ⟨[], [], m, k⟩ l).content,
       (splitStep ⟨[], [], m, k⟩ l).inFrontmatter,
       (splitStep ⟨[], [], m, k⟩ l).count⟩ := by
  unfold splitStep
  split
  · split
    · simp
    · split
      · simp
      · split <;> simp
  · split <;> simp

theorem splitFold_acc (lines : List Str) :
    ∀ (f c : List Str) (m : Bool) (k : Nat),
    List.foldl splitStep ⟨f, c, m, k⟩ lines =
      ⟨f ++ (List.foldl splitStep ⟨[], [], m, k⟩ lines).frontmatter,
       c ++ (List.foldl splitStep ⟨[], [], m, k⟩ lines).content,
       (List.foldl splitStep ⟨[], [], m, k⟩ lines).inFrontmatter,
       (List.foldl splitStep ⟨[], [], m, k⟩ lines).count⟩ := by
  induction lines with
  | nil => intro f c m k; simp
  | cons l rest ih =>
    intro f c m k
    simp only [List.foldl_cons]
    rw [splitStep_acc]
    rw [ih]
    conv_rhs => rw [splitStep_acc, ih]
    simp

/-- The inFrontmatter flag is on exactly between the first and second
delimiter-prefixed line: an invariant of the readPost scanner loop. -/
theorem splitFold_flag (lines : List Str) :
    ∀ (s : SplitState), s.inFrontmatter = decide (s.count = 1) →
    (List.foldl splitStep s lines).inFrontmatter =
      decide ((List.foldl splitStep s lines).count = 1) := by
  induction lines with
  | nil => intro s h; simpa
  | cons l rest ih =>
    intro s h
    simp only [List.foldl_cons]
    apply ih
    unfold splitStep
    by_cases h1 : delim.isPrefixOf l <;> simp [h1, h]
    · rcases s with ⟨f, c, m, k⟩
      simp at h ⊢
      rcases k with _ | k
      · simp
      · rcases k with _ | k <;> simp [h]
    · rcases s with ⟨f, c, m, k⟩
      simp at h ⊢
      split <;> simp [h]

theorem splitRun_flag (lines : List Str) :
    (splitRun lines).inFrontmatter = decide ((splitRun lines).count = 1) := by
  exact splitFold_flag lines initSplit (by simp [initSplit])

theorem splitFold_noDelim (pre : List Str) :
    ∀ (f c : List Str), (∀ l ∈ pre, delim.isPrefixOf l = false) →
    List.foldl splitStep ⟨f, c, false, 0⟩ pre = ⟨f, c ++ pre, false, 0⟩ := by
  induction pre with
  | nil => intro f c _; simp
  | cons l rest ih =>
    intro f c h
    have hl : delim.isPrefixOf l = false := h l (by simp)
    have hstep : splitStep ⟨f, c, false, 0⟩ l = ⟨f, c ++ [l], false, 0⟩ := by
      unfold splitStep; simp [hl]
    simp only [List.foldl_cons, hstep]
    rw [ih (f := f) (c := c ++ [l]) (fun x hx => h x (by simp [hx]))]
    simp

theorem splitFold_inFront (L : List Str) :
    ∀ (f c : List Str), (∀ l ∈ L, delim.isPrefixOf l = false) →
    List.foldl splitStep ⟨f, c, true, 1⟩ L = ⟨f ++ L, c, true, 1⟩ := by
  induction L with
  | nil => intro f c _; simp
  | cons l rest ih =>
    intro f c h
    have hl : delim.isPrefixOf l = false := h l (by simp)
    have hstep : splitStep ⟨f, c, true, 1⟩ l = ⟨f ++ [l], c, true, 1⟩ := by
      unfold splitStep; simp [hl]
    simp only [List.foldl_cons, hstep]
    rw [ih (f := f ++ [l]) (c := c) (fun x hx => h x (by simp [hx]))]
    simp

theorem splitFold_after2 (L : List Str) :
    ∀ (f c : List Str) (k : Nat), 2 ≤ k →
    (List.foldl splitStep ⟨f, c, false, k⟩ L).frontmatter = f ∧
    (List.foldl splitStep ⟨f, c, false, k⟩ L).content = c ++ L ∧
    (List.foldl splitStep ⟨f, c, false, k⟩ L).inFrontmatter = false := by
  induction L with
  | nil => intro f c k _; simp
  | cons l rest ih =>
    intro f c k hk
    have h1 : ¬ (k + 1 = 1) := by omega
    have h2 : ¬ (k + 1 = 2) := by omega
    by_cases hd : delim.isPrefixOf l
    · have hstep : splitStep ⟨f, c, false, k⟩ l = ⟨f, c ++ [l], false, k + 1⟩ := by
        unfold splitStep; simp [hd, h1, h2]
      simp only [List.foldl_cons, hstep]
      obtain ⟨i1, i2, i3⟩ := ih f (c ++ [l]) (k + 1) (by omega)
      refine ⟨i1, ?_, i3⟩
      rw [i2]; simp
    · have hstep : splitStep ⟨f, c, false, k⟩ l = ⟨f, c ++ [l], false, k⟩ := by
        unfold splitStep; simp [hd]
      simp only [List.foldl_cons, hstep]
      obtain ⟨i1, i2, i3⟩ := ih f (c ++ [l]) k hk
      refine ⟨i1, ?_, i3⟩
      rw [i2]; simp

theorem splitStep_toggle (s : SplitState) (l : Str)
    (h : s.inFrontmatter = decide (s.count = 1)) :
    ((splitStep s l).inFrontmatter ≠ s.inFrontmatter ↔
      delim.isPrefixOf l = true ∧ s.count < 2) := by
  rcases s with ⟨f, c, m, k⟩
  simp only at h
  rw [h]
  unfold splitStep
  rw [h]
  by_cases hd : delim.isPrefixOf l
  · rcases k with _ | k
    · simp [hd]
    · rcases k with _ | k
      · simp [hd]
      · simp [hd]
  · simp [hd]
    rcases k with _ | k
    · simp
    · split <;> simp

/-- C2 (amended): the readPost splitter recognizes as a delimiter
exactly the lines that BEGIN with three hyphens (strings.HasPrefix, not
an exact match); the first such line switches into metadata mode, the
second switches back to body mode, and no other line changes the mode.
The inFrontmatter flag is on exactly when one delimiter has been seen. -/
theorem splitter_delimiter_toggle (lines : List Str) (l : Str) :
    ((splitRun lines).inFrontmatter = decide ((splitRun lines).count = 1)) ∧
    ((splitStep (splitRun lines) l).inFrontmatter ≠ (splitRun lines).inFrontmatter ↔
      delim.isPrefixOf l = true ∧ (splitRun lines).count < 2) := by
  exact ⟨splitRun_flag lines, splitStep_toggle _ l (splitRun_flag lines)⟩

/-- C2 counterexample: the line of four hyphens is not the three-hyphen
delimiter line, yet it toggles the splitter into metadata mode. -/
theorem splitter_delimiter_toggle_cex :
    ['-', '-', '-', '-'] ≠ delim ∧
    (splitRun []).inFrontmatter = false ∧
    (splitRun [['-', '-', '-', '-']]).inFrontmatter = true := by decide

theorem splitter_delimiter_toggle_witness :
    (splitStep (splitRun []) ['-', '-', '-', '-']).inFrontmatter ≠
      (splitRun []).inFrontmatter :=
  ((splitter_delimiter_toggle [] ['-', '-', '-', '-']).2).mpr (by decide)

/-- C3 (amended): lines before the first delimiter line are appended to
the body output, and never to the metadata block output. -/
theorem pre_delimiter_lines_in_body (pre rest : List Str)
    (h : ∀ l ∈ pre, delim.isPrefixOf l = false) :
    (splitRun (pre ++ rest)).frontmatter = (splitRun rest).frontmatter ∧
    (splitRun (pre ++ rest)).content = pre ++ (splitRun rest).content := by
  unfold splitRun
  rw [List.foldl_append]
  have h0 : List.foldl splitStep initSplit pre = ⟨[], pre, false, 0⟩ := by
    have := splitFold_noDelim pre [] [] h
    simpa [initSplit] using this
  rw [h0]
  rw [splitFold_acc rest [] pre false 0]
  constructor
  · simp [initSplit]
  · simp [initSplit]

/-- C3 counterexample: on a file whose first line precedes the first
delimiter, that line is not discarded; it reappears in the body
output. -/
theorem pre_delimiter_lines_in_body_cex :
    (splitRun [['h', 'i'], delim, ['t', ':', 'x'], delim, ['b']]).content =
      [['h', 'i'], ['b']] ∧
    ['h', 'i'] ∈ (splitRun [['h', 'i'], delim, ['t', ':', 'x'], delim, ['b']]).content := by
  decide

theorem pre_delimiter_lines_in_body_witness :
    (splitRun ([['h', 'i']] ++ [delim, ['t', ':', 'x'], delim, ['b']])).frontmatter =
      (splitRun [delim, ['t', ':', 'x'], delim, ['b']]).frontmatter ∧
    (splitRun ([['h', 'i']] ++ [delim, ['t', ':', 'x'], delim, ['b']])).content =
      [['h', 'i']] ++ (splitRun [delim, ['t', ':', 'x'], delim, ['b']]).content :=
  pre_delimiter_lines_in_body [['h', 'i']] [delim, ['t', ':', 'x'], delim, ['b']] (by decide)

/-- C9 (amended): a file with no line beginning with three hyphens is
read without error: the whole file becomes the body and the metadata
decodes to the all-default Post. -/
theorem no_delimiter_whole_body (md : Str → Str) (fileName baseURL : Str)
    (lines : List Str) (h : ∀ l ∈ lines, delim.isPrefixOf l = false) :
    readPost md fileName baseURL lines =
      .ok { title := [], date := [], tags := [],
            content := md (joinSep '\n' lines),
            slug := slugOf fileName, baseURL := baseURL } := by
  have hs : splitRun lines = ⟨[], lines, false, 0⟩ := by
    have := splitFold_noDelim lines [] [] h
    simpa [splitRun, initSplit] using this
  unfold readPost
  rw [hs]
  rfl

/-- C9 counterexample: a file with a four-hyphen line contains no
delimiter line (no line equal to three hyphens), yet its body output is
empty rather than the whole file. -/
theorem no_delimiter_whole_body_cex :
    delim ∉ [['-', '-', '-', '-'], ['x']] ∧
    (splitRun [['-', '-', '-', '-'], ['x']]).content = [] := by decide

theorem no_delimiter_whole_body_witness :
    readPost (fun s => s) ("content/posts/a.md".toList) ['b'] [['h', 'i']] =
      .ok { title := [], date := [], tags := [], content := ['h', 'i'],
            slug := ['a'], baseURL := ['b'] } :=
  no_delimiter_whole_body (fun s => s) ("content/posts/a.md".toList) ['b']
    [['h', 'i']] (by decide)

theorem isPrefixOf_append_self (l r : Str) : l.isPrefixOf (l ++ r) = true := by
  induction l with
  | nil => simp [List.isPrefixOf]
  | cons a as ih => simp [List.isPrefixOf, ih]

theorem isSuffixOf_append_self (l r : Str) : r.isSuffixOf (l ++ r) = true := by
  simp [List.isSuffixOf, List.reverse_append, isPrefixOf_append_self]

theorem slugOf_mkPostPath (s : Str) : slugOf (mkPostPath s) = s := by
  have e1 : mkPostPath s = ((postsDir ++ ['/']) ++ s) ++ mdExt := by
    simp [mkPostPath]
  rw [e1]
  unfold slugOf
  have h1 : goTrimSuffix ((((postsDir ++ ['/']) ++ s) ++ mdExt) : Str) mdExt =
      (postsDir ++ ['/']) ++ s := by
    unfold goTrimSuffix
    simp only [isSuffixOf_append_self, if_true]
    rw [List.length_append, Nat.add_sub_cancel, List.take_left]
  rw [h1]
  unfold goTrimPrefix
  simp only [isPrefixOf_append_self, if_true]
  exact List.drop_left _ _

/-- C4: slug derivation is the pure function that strips the
content/posts/ prefix and the .md suffix: identical stems give identical
slugs, distinct stems give distinct slugs, and
content/posts/hello-world.md yields hello-world. -/
theorem slug_deterministic (s1 s2 : Str)
    (h : slugOf (mkPostPath s1) = slugOf (mkPostPath s2)) :
    s1 = s2 ∧ slugOf (mkPostPath s1) = s1 ∧
    slugOf ("content/posts/hello-world.md".toList) = "hello-world".toList := by
  refine ⟨?_, slugOf_mkPostPath s1, by decide⟩
  rw [slugOf_mkPostPath, slugOf_mkPostPath] at h
  exact h

theorem slug_deterministic_witness :
    slugOf (mkPostPath ['a']) = ['a'] ∧
    slugOf ("content/posts/hello-world.md".toList) = "hello-world".toList :=
  ⟨(slug_deterministic ['a'] ['a'] rfl).2.1, (slug_deterministic ['a'] ['a'] rfl).2.2⟩

theorem exceptBind_ok {α β : Type} (x : α) (f : α → Except Str β) :
    ((Except.ok x : Except Str α) >>= f) = f x := rfl

theorem exceptBind_error {α β : Type} (e : Str) (f : α → Except Str β) :
    ((Except.error e : Except Str α) >>= f) = Except.error e := rfl

theorem isPrefixOf_cons_cons (a b : Char) (as bs : Str) :
    (a :: as).isPrefixOf (b :: bs) = (a == b && as.isPrefixOf bs) := by
  simp [List.isPrefixOf]

theorem not_isPrefixOf_append (k p v : Str) (h1 : k.isPrefixOf p = false)
    (h2 : p.isPrefixOf k = false) : k.isPrefixOf (p ++ v) = false := by
  by_contra hne
  have hk : k <+: p ++ v := by
    have : k.isPrefixOf (p ++ v) = true := by
      cases hkv : k.isPrefixOf (p ++ v) <;> simp_all
    exact List.isPrefixOf_iff_prefix.mp this
  have hp : p <+: p ++ v := List.prefix_append p v
  rcases List.prefix_or_prefix_of_prefix hk hp with hc | hc
  · rw [List.isPrefixOf_iff_prefix.mpr hc] at h1; cases h1
  · rw [List.isPrefixOf_iff_prefix.mpr hc] at h2; cases h2

theorem yamlTrim_cons_space (s : Str) : yamlTrim (' ' :: s) = yamlTrim s := by
  simp [yamlTrim, List.dropWhile_cons]

theorem yamlTrim_eq_nil_iff (s : Str) : yamlTrim s = [] ↔ ∀ c ∈ s, c = ' ' := by
  unfold yamlTrim
  constructor
  · intro h c hc
    have h1 : (s.dropWhile (fun c => c = ' ')).reverse.dropWhile (fun c => c = ' ') = [] := by
      have := congrArg List.reverse h
      simpa using this
    rw [List.dropWhile_eq_nil_iff] at h1
    rcases List.mem_append.mp (by
      rw [List.takeWhile_append_dropWhile]; exact hc :
        c ∈ s.takeWhile (fun c => c = ' ') ++ s.dropWhile (fun c => c = ' ')) with hm | hm
    · have := List.mem_takeWhile_imp hm
      simpa using this
    · have := h1 c (by simpa using hm)
      simpa using this
  · intro h
    have h1 : s.dropWhile (fun c => c = ' ') = [] := by
      rw [List.dropWhile_eq_nil_iff]
      intro x hx; simpa using h x hx
    simp [h1]

theorem yamlTrim_length_le (s : Str) : (yamlTrim s).length ≤ s.length := by
  have key : ∀ (l : Str), (l.dropWhile (fun c => c = ' ')).length ≤ l.length := by
    intro l
    induction l with
    | nil => simp
    | cons a as ih =>
      rw [List.dropWhile_cons]
      split
      · simp; omega
      · simp
  unfold yamlTrim
  calc ((s.dropWhile (fun c => c = ' ')).reverse.dropWhile (fun c => c = ' ')).reverse.length
      = ((s.dropWhile (fun c => c = ' ')).reverse.dropWhile (fun c => c = ' ')).length := by
        simp
    _ ≤ (s.dropWhile (fun c => c = ' ')).reverse.length := key _
    _ = (s.dropWhile (fun c => c = ' ')).length := by simp
    _ ≤ s.length := key s

theorem yamlTrim_fixed_head (c : Char) (r : Str) (h : yamlTrim (c :: r) = c :: r) :
    ¬ c = ' ' := by
  intro hc
  subst hc
  rw [yamlTrim_cons_space] at h
  have h2 := yamlTrim_length_le r
  rw [h] at h2
  simp at h2

theorem yamlTrim_sandwich (c e : Char) (xs : Str) (hc : ¬ c = ' ') (he : ¬ e = ' ') :
    yamlTrim (c :: (xs ++ [e])) = c :: (xs ++ [e]) := by
  unfold yamlTrim
  rw [List.dropWhile_cons]
  rw [if_neg (by simp [hc])]
  rw [show (c :: (xs ++ [e])).reverse = e :: (xs.reverse ++ [c]) from by simp]
  rw [List.dropWhile_cons]
  rw [if_neg (by simp [he])]
  simp

theorem splitComma_no_comma (a : Str) (h : ',' ∉ a) : splitComma a = [a] := by
  induction a with
  | nil => rfl
  | cons c r ih =>
    have hc : ¬ c = ',' := by intro e; exact h (by simp [e])
    have hr : ',' ∉ r := fun hm => h (by simp [hm])
    unfold splitComma
    rw [ih hr]
    simp [hc]

theorem splitComma_append_comma (a r : Str) (h : ',' ∉ a) :
    splitComma (a ++ ',' :: r) = a :: splitComma r := by
  induction a with
  | nil => simp [splitComma]
  | cons c as ih =>
    have hc : ¬ c = ',' := by intro e; exact h (by simp [e])
    have ha : ',' ∉ as := fun hm => h (by simp [hm])
    have iha := ih ha
    rw [List.cons_append]
    generalize hX : splitComma r = X
    rw [hX] at iha
    unfold splitComma
    rw [iha]
    simp [hc]

theorem splitComma_joinSep (l : List Str) (hl : l ≠ []) (h : ∀ x ∈ l, ',' ∉ x) :
    splitComma (joinSep ',' l) = l := by
  induction l with
  | nil => cases hl rfl
  | cons x xs ih =>
    cases xs with
    | nil => exact splitComma_no_comma x (h x (by simp))
    | cons y ys =>
      have e1 : joinSep ',' (x :: y :: ys) = x ++ ',' :: joinSep ',' (y :: ys) := rfl
      rw [e1, splitComma_append_comma x _ (h x (by simp)),
          ih (by simp) (fun z hz => h z (by simp [hz]))]

theorem joinSep_cons_head (x : Str) (xs : List Str) :
    ∃ w, joinSep ',' (x :: xs) = x ++ w := by
  cases xs with
  | nil => exact ⟨[], by simp [joinSep]⟩
  | cons y ys => exact ⟨',' :: joinSep ',' (y :: ys), rfl⟩

theorem decodeLine_title (m : Meta) (t : Str) :
    decodeLine m (titleKey ++ ' ' :: t) = .ok { m with title := yamlTrim t } := by
  unfold decodeLine
  rw [if_pos (by rw [isPrefixOf_append_self])]
  rw [List.drop_left, yamlTrim_cons_space]

theorem decodeLine_date (m : Meta) (d : Str) :
    decodeLine m (dateKey ++ ' ' :: d) = .ok { m with date := yamlTrim d } := by
  unfold decodeLine
  rw [if_neg (by rw [not_isPrefixOf_append titleKey dateKey (' ' :: d) (by decide) (by decide)]; simp)]
  rw [if_pos (by rw [isPrefixOf_append_self])]
  rw [List.drop_left, yamlTrim_cons_space]

theorem decodeLine_tags (m : Meta) (v : Str) :
    decodeLine m (tagsKey ++ ' ' :: v) =
      match parseTagsValue (' ' :: v) with
      | .ok ts => .ok { m with tags := ts }
      | .error e => .error e := by
  unfold decodeLine
  rw [if_neg (by rw [not_isPrefixOf_append titleKey tagsKey (' ' :: v) (by decide) (by decide)]; simp)]
  rw [if_neg (by rw [not_isPrefixOf_append dateKey tagsKey (' ' :: v) (by decide) (by decide)]; simp)]
  rw [if_pos (by rw [isPrefixOf_append_self])]
  rw [List.drop_left]

theorem parseTagsValue_join (tags : List Str)
    (h : ∀ x ∈ tags, yamlTrim x = x ∧ ',' ∉ x ∧ x ≠ []) :
    parseTagsValue (' ' :: '[' :: (joinSep ',' tags ++ [']'])) = .ok tags := by
  have htrim : yamlTrim (' ' :: '[' :: (joinSep ',' tags ++ [']'])) =
      '[' :: (joinSep ',' tags ++ [']']) := by
    rw [yamlTrim_cons_space]
    exact yamlTrim_sandwich '[' ']' (joinSep ',' tags) (by decide) (by decide)
  unfold parseTagsValue
  rw [htrim]
  rw [if_pos (by
    refine ⟨rfl, ?_, ?_⟩
    · rw [show ('[' :: (joinSep ',' tags ++ [']']) : Str) =
          ('[' :: joinSep ',' tags) ++ [']'] from by simp]
      exact List.getLast?_concat _
    · simp)]
  simp only [List.drop_succ_cons, List.drop_zero, List.dropLast_concat]
  cases tags with
  | nil => simp [joinSep, yamlTrim]
  | cons x xs =>
    obtain ⟨ht, hcm, hne⟩ := h x (by simp)
    obtain ⟨c, r, hx⟩ : ∃ c r, x = c :: r := by
      cases x with
      | nil => cases hne rfl
      | cons c r => exact ⟨c, r, rfl⟩
    have hcsp : ¬ c = ' ' := yamlTrim_fixed_head c r (by rw [← hx]; exact ht)
    have hjoin : ∃ w, joinSep ',' (x :: xs) = x ++ w := joinSep_cons_head x xs
    obtain ⟨w, hw⟩ := hjoin
    have hnotnil : yamlTrim (joinSep ',' (x :: xs)) ≠ [] := by
      intro hnil
      rw [yamlTrim_eq_nil_iff] at hnil
      have : c ∈ joinSep ',' (x :: xs) := by
        rw [hw, hx]; simp
      exact hcsp (hnil c this)
    rw [if_neg hnotnil]
    rw [splitComma_joinSep (x :: xs) (by simp) (fun z hz => (h z hz).2.1)]
    have : (x :: xs).map yamlTrim = x :: xs :=
      List.map_congr_left (fun a ha => (h a ha).1) |>.trans (List.map_id _)
    rw [this]

theorem decodeMeta_encode (t d : Str) (tags : List Str)
    (ht : yamlTrim t = t) (hd : yamlTrim d = d)
    (htags : ∀ x ∈ tags, yamlTrim x = x ∧ ',' ∉ x ∧ x ≠ []) :
    decodeMeta (encodeMetaLines t d tags) = .ok ⟨t, d, tags⟩ := by
  have e1 : decodeLine defaultMeta (titleKey ++ ' ' :: t) = .ok ⟨t, [], []⟩ := by
    rw [decodeLine_title, ht]; rfl
  have e2 : decodeLine ⟨t, [], []⟩ (dateKey ++ ' ' :: d) = .ok ⟨t, d, []⟩ := by
    rw [decodeLine_date, hd]
  have e3 : decodeLine ⟨t, d, []⟩ (tagsKey ++ ' ' :: '[' :: (joinSep ',' tags ++ [']'])) =
      .ok ⟨t, d, tags⟩ := by
    rw [decodeLine_tags, parseTagsValue_join tags htags]
  unfold decodeMeta encodeMetaLines
  rw [List.foldlM_cons, e1, exceptBind_ok, List.foldlM_cons, e2, exceptBind_ok,
      List.foldlM_cons, e3, exceptBind_ok, List.foldlM_nil]
  rfl

theorem splitRun_createFile (t d : Str) (tags : List Str) (body : List Str) :
    (splitRun (createFileLines t d tags body)).frontmatter = encodeMetaLines t d tags ∧
    (splitRun (createFileLines t d tags body)).content = [] :: body := by
  have hmeta : ∀ l ∈ encodeMetaLines t d tags, delim.isPrefixOf l = false := by
    intro l hl
    rcases (by simpa [encodeMetaLines] using hl :
        l = titleKey ++ ' ' :: t ∨ l = dateKey ++ ' ' :: d ∨
        l = tagsKey ++ ' ' :: '[' :: (joinSep ',' tags ++ [']'])) with h | h | h
    · rw [h]; exact not_isPrefixOf_append delim titleKey _ (by decide) (by decide)
    · rw [h]; exact not_isPrefixOf_append delim dateKey _ (by decide) (by decide)
    · rw [h]; exact not_isPrefixOf_append delim tagsKey _ (by decide) (by decide)
  have s1 : splitStep initSplit delim = ⟨[], [], true, 1⟩ := by decide
  have s2 : splitStep ⟨[] ++ encodeMetaLines t d tags, [], true, 1⟩ delim =
      ⟨[] ++ encodeMetaLines t d tags, [], false, 2⟩ := by
    unfold splitStep
    rw [if_pos (by decide)]
    simp
  unfold splitRun createFileLines
  rw [List.foldl_append]
  rw [show List.foldl splitStep initSplit (delim :: encodeMetaLines t d tags) =
      (⟨[] ++ encodeMetaLines t d tags, [], true, 1⟩ : SplitState) from by
    rw [List.foldl_cons, s1]
    exact splitFold_inFront (encodeMetaLines t d tags) [] [] hmeta]
  rw [List.foldl_cons, s2]
  obtain ⟨f2, c2, _⟩ :=
    splitFold_after2 ([] :: body) ([] ++ encodeMetaLines t d tags) [] 2 (by omega)
  exact ⟨by rw [f2]; simp, by rw [c2]; simp⟩

/-- C8: for a file produced by the creation-time encoding with trimmed
title and date and trimmed, comma-free, non-empty tags, splitting then
decoding recovers exactly the original title, date and tags values, so
re-encoding the decoded fields reproduces the original metadata block;
the body (with its leading blank line) is untouched. -/
theorem create_roundtrip (t d : Str) (tags : List Str) (body : List Str)
    (ht : yamlTrim t = t) (hd : yamlTrim d = d)
    (htags : ∀ x ∈ tags, yamlTrim x = x ∧ ',' ∉ x ∧ x ≠ []) :
    (splitRun (createFileLines t d tags body)).frontmatter = encodeMetaLines t d tags ∧
    decodeMeta ((splitRun (createFileLines t d tags body)).frontmatter) = .ok ⟨t, d, tags⟩ ∧
    encodeMetaLines t d tags = (splitRun (createFileLines t d tags body)).frontmatter ∧
    (splitRun (createFileLines t d tags body)).content = [] :: body := by
  obtain ⟨hf, hc⟩ := splitRun_createFile t d tags body
  exact ⟨hf, by rw [hf]; exact decodeMeta_encode t d tags ht hd htags, hf.symm, hc⟩

theorem create_roundtrip_witness :
    decodeMeta ((splitRun (createFileLines "Hello World".toList "2024-01-01".toList
        ["intro".toList, "test".toList] ["# Hi".toList])).frontmatter) =
      .ok ⟨"Hello World".toList, "2024-01-01".toList, ["intro".toList, "test".toList]⟩ :=
  (create_roundtrip "Hello World".toList "2024-01-01".toList
    ["intro".toList, "test".toList] ["# Hi".toList]
    (by decide) (by decide) (by decide)).2.1

theorem decodeLine_stable (m m1 : Meta) (l : Str) (h : decodeLine m l = .ok m1) :
    (titleKey.isPrefixOf l = false → m1.title = m.title) ∧
    (dateKey.isPrefixOf l = false → m1.date = m.date) ∧
    (tagsKey.isPrefixOf l = false → m1.tags = m.tags) := by
  unfold decodeLine at h
  by_cases c1 : titleKey.isPrefixOf l
  · rw [if_pos c1] at h
    injection h with h
    refine ⟨fun hf => ?_, fun _ => ?_, fun _ => ?_⟩
    · rw [c1] at hf; cases hf
    · rw [← h]
    · rw [← h]
  · rw [if_neg c1] at h
    by_cases c2 : dateKey.isPrefixOf l
    · rw [if_pos c2] at h
      injection h with h
      refine ⟨fun _ => ?_, fun hf => ?_, fun _ => ?_⟩
      · rw [← h]
      · rw [c2] at hf; cases hf
      · rw [← h]
    · rw [if_neg c2] at h
      by_cases c3 : tagsKey.isPrefixOf l
      · rw [if_pos c3] at h
        rcases hp : parseTagsValue (l.drop tagsKey.length) with e | ts
        · rw [hp] at h; cases h
        · rw [hp] at h
          injection h with h
          refine ⟨fun _ => ?_, fun _ => ?_, fun hf => ?_⟩
          · rw [← h]
          · rw [← h]
          · rw [c3] at hf; cases hf
      · rw [if_neg c3] at h
        by_cases c4 : l.contains ':'
        · rw [if_pos c4] at h
          injection h with h
          exact ⟨fun _ => by rw [← h], fun _ => by rw [← h], fun _ => by rw [← h]⟩
        · rw [if_neg c4] at h
          by_cases c5 : yamlTrim l = []
          · rw [if_pos c5] at h
            injection h with h
            exact ⟨fun _ => by rw [← h], fun _ => by rw [← h], fun _ => by rw [← h]⟩
          · rw [if_neg c5] at h; cases h

theorem decodeLine_ok_of_lineOk (m : Meta) (l : Str) (h : lineOk l = true) :
    ∃ m1, decodeLine m l = .ok m1 := by
  unfold lineOk at h
  unfold decodeLine
  by_cases c1 : titleKey.isPrefixOf l
  · rw [if_pos c1]; exact ⟨_, rfl⟩
  · rw [if_neg c1] at h ⊢
    by_cases c2 : dateKey.isPrefixOf l
    · rw [if_pos c2]; exact ⟨_, rfl⟩
    · rw [if_neg c2] at h ⊢
      by_cases c3 : tagsKey.isPrefixOf l
      · rw [if_pos c3] at h ⊢
        rcases hp : parseTagsValue (l.drop tagsKey.length) with e | ts
        · rw [hp] at h; cases h
        · exact ⟨_, rfl⟩
      · rw [if_neg c3] at h ⊢
        by_cases c4 : l.contains ':'
        · rw [if_pos c4]; exact ⟨_, rfl⟩
        · rw [if_neg c4] at h ⊢
          rw [if_pos (by simpa using h)]
          exact ⟨_, rfl⟩

theorem decodeFold_ok (lines : List Str) :
    ∀ (m : Meta), (∀ l ∈ lines, lineOk l = true) →
    ∃ m1, List.foldlM decodeLine m lines = .ok m1 := by
  induction lines with
  | nil => intro m _; exact ⟨m, rfl⟩
  | cons l ls ih =>
    intro m h
    obtain ⟨m1, hm1⟩ := decodeLine_ok_of_lineOk m l (h l (by simp))
    obtain ⟨m2, hm2⟩ := ih m1 (fun x hx => h x (by simp [hx]))
    exact ⟨m2, by rw [List.foldlM_cons, hm1, exceptBind_ok, hm2]⟩

theorem decodeFold_stable (lines : List Str) :
    ∀ (m m1 : Meta), List.foldlM decodeLine m lines = .ok m1 →
    ((∀ l ∈ lines, titleKey.isPrefixOf l = false) → m1.title = m.title) ∧
    ((∀ l ∈ lines, dateKey.isPrefixOf l = false) → m1.date = m.date) ∧
    ((∀ l ∈ lines, tagsKey.isPrefixOf l = false) → m1.tags = m.tags) := by
  induction lines with
  | nil =>
    intro m m1 h
    have : m = m1 := by
      rw [List.foldlM_nil] at h
      injection h
    rw [this]
    exact ⟨fun _ => rfl, fun _ => rfl, fun _ => rfl⟩
  | cons l ls ih =>
    intro m m1 h
    rw [List.foldlM_cons] at h
    rcases hdl : decodeLine m l with e | mm
    · rw [hdl, exceptBind_error] at h; cases h
    · rw [hdl, exceptBind_ok] at h
      obtain ⟨s1, s2, s3⟩ := ih mm m1 h
      obtain ⟨p1, p2, p3⟩ := decodeLine_stable m mm l hdl
      refine ⟨fun hall => ?_, fun hall => ?_, fun hall => ?_⟩
      · rw [s1 (fun x hx => hall x (by simp [hx])), p1 (hall l (by simp))]
      · rw [s2 (fun x hx => hall x (by simp [hx])), p2 (hall l (by simp))]
      · rw [s3 (fun x hx => hall x (by simp [hx])), p3 (hall l (by simp))]

/-- C5: the Metadata Decoder is lenient: every structurally valid block
decodes successfully; a block with no title, date or tags line leaves
the empty-string and empty-sequence defaults; the empty block decodes to
the all-default record; and a line with an unknown key is ignored
outright.  Decoding fails only on a structurally invalid line. -/
theorem decoder_lenient (lines : List Str) (hvalid : ∀ l ∈ lines, lineOk l = true) :
    (∃ m, decodeMeta lines = .ok m) ∧
    (∀ m, decodeMeta lines = .ok m →
      ((∀ l ∈ lines, titleKey.isPrefixOf l = false) → m.title = []) ∧
      ((∀ l ∈ lines, dateKey.isPrefixOf l = false) → m.date = []) ∧
      ((∀ l ∈ lines, tagsKey.isPrefixOf l = false) → m.tags = [])) ∧
    decodeMeta [] = .ok defaultMeta ∧
    (∀ (l : Str) (m : Meta), l.contains ':' = true →
      titleKey.isPrefixOf l = false → dateKey.isPrefixOf l = false →
      tagsKey.isPrefixOf l = false → decodeLine m l = .ok m) := by
  refine ⟨decodeFold_ok lines defaultMeta hvalid, ?_, rfl, ?_⟩
  · intro m hm
    exact decodeFold_stable lines defaultMeta m hm
  · intro l m hc h1 h2 h3
    unfold decodeLine
    rw [if_neg (by rw [h1]; simp), if_neg (by rw [h2]; simp),
        if_neg (by rw [h3]; simp), if_pos hc]

theorem decoder_lenient_witness :
    decodeMeta [] = .ok defaultMeta ∧
    decodeLine ⟨['a'], [], []⟩ ['f', 'o', 'o', ':', 'b'] = .ok ⟨['a'], [], []⟩ :=
  ⟨(decoder_lenient [] (by simp)).2.2.1,
   (decoder_lenient [] (by simp)).2.2.2 ['f', 'o', 'o', ':', 'b'] ⟨['a'], [], []⟩
     (by decide) (by decide) (by decide) (by decide)⟩

theorem readPostsLoop_ok (dir : Str) (rp : Str → Except Str Post) (postOf : DirEntry → Post) :
    ∀ (fs : List DirEntry) (acc : List Post),
    (∀ f ∈ fs, selectEntry f = true → rp (filePath dir f.name) = .ok (postOf f)) →
    readPostsLoop dir rp fs acc = .ok (acc ++ (fs.filter selectEntry).map postOf) := by
  intro fs
  induction fs with
  | nil => intro acc _; simp [readPostsLoop]
  | cons f fs ih =>
    intro acc h
    by_cases hs : selectEntry f = true
    · have hr := h f (by simp) hs
      simp only [readPostsLoop]
      rw [if_pos hs, hr]
      show readPostsLoop dir rp fs (acc ++ [postOf f]) = _
      rw [ih (acc ++ [postOf f]) (fun g hg hsg => h g (by simp [hg]) hsg)]
      rw [List.filter_cons, if_pos hs]
      simp
    · simp only [readPostsLoop]
      rw [if_neg hs]
      rw [ih acc (fun g hg hsg => h g (by simp [hg]) hsg)]
      rw [List.filter_cons, if_neg hs]

theorem readPostsLoop_err (dir : Str) (rp : Str → Except Str Post) (e : Str)
    (f : DirEntry) (suf : List DirEntry)
    (hf : selectEntry f = true) (hrp : rp (filePath dir f.name) = .error e) :
    ∀ (pre : List DirEntry) (acc : List Post),
    (∀ g ∈ pre, selectEntry g = true → ∃ p, rp (filePath dir g.name) = .ok p) →
    readPostsLoop dir rp (pre ++ f :: suf) acc = .error e := by
  intro pre
  induction pre with
  | nil =>
    intro acc _
    simp only [List.nil_append, readPostsLoop]
    rw [if_pos hf, hrp]
  | cons g pre ih =>
    intro acc hok
    rw [List.cons_append]
    simp only [readPostsLoop]
    by_cases hg : selectEntry g = true
    · obtain ⟨p, hp⟩ := hok g (by simp) hg
      rw [if_pos hg, hp]
      exact ih (acc ++ [p]) (fun x hx hsx => hok x (by simp [hx]) hsx)
    · rw [if_neg hg]
      exact ih acc (fun x hx hsx => hok x (by simp [hx]) hsx)

/-- C6: readPosts yields one Post per direct entry whose name ends in
.md, in listing order, skipping directories and non-matching names; a
failing directory read aborts with that error, and the first failing
file read aborts the whole run with its error, producing no Post
collection. -/
theorem readPosts_spec (dir : Str) (rp : Str → Except Str Post)
    (entries : List DirEntry) (e : Str) (postOf : DirEntry → Post) :
    readPosts dir (.error e) rp = .error e ∧
    ((∀ f ∈ entries, selectEntry f = true → rp (filePath dir f.name) = .ok (postOf f)) →
      readPosts dir (.ok entries) rp = .ok ((entries.filter selectEntry).map postOf)) ∧
    (∀ (pre : List DirEntry) (f : DirEntry) (suf : List DirEntry) (err : Str),
      entries = pre ++ f :: suf → selectEntry f = true →
      rp (filePath dir f.name) = .error err →
      (∀ g ∈ pre, selectEntry g = true → ∃ p, rp (filePath dir g.name) = .ok p) →
      readPosts dir (.ok entries) rp = .error err) := by
  refine ⟨rfl, fun h => ?_, fun pre f suf err he hf hrp hok => ?_⟩
  · show readPostsLoop dir rp entries [] = _
    rw [readPostsLoop_ok dir rp postOf entries [] h]
    simp
  · show readPostsLoop dir rp entries [] = _
    rw [he]
    exact readPostsLoop_err dir rp err f suf hf hrp pre [] hok

theorem readPosts_spec_witness :
    readPosts postsDir
      (.ok [⟨"a.md".toList, false⟩, ⟨"sub".toList, true⟩, ⟨"b.txt".toList, false⟩,
            ⟨"c.md".toList, false⟩])
      (fun _ => .ok ⟨[], [], [], [], [], []⟩) =
      .ok [⟨[], [], [], [], [], []⟩, ⟨[], [], [], [], [], []⟩] ∧
    readPosts postsDir (.ok [⟨"a.md".toList, false⟩]) (fun _ => .error ['x']) =
      .error ['x'] :=
  ⟨by
    have h := (readPosts_spec postsDir (fun _ => .ok ⟨[], [], [], [], [], []⟩)
      [⟨"a.md".toList, false⟩, ⟨"sub".toList, true⟩, ⟨"b.txt".toList, false⟩,
       ⟨"c.md".toList, false⟩] ['e'] (fun _ => ⟨[], [], [], [], [], []⟩)).2.1
      (fun _ _ _ => rfl)
    rw [h]
    rfl,
   (readPosts_spec postsDir (fun _ => .error ['x']) [⟨"a.md".toList, false⟩] ['e']
      (fun _ => ⟨[], [], [], [], [], []⟩)).2.2 [] ⟨"a.md".toList, false⟩ [] ['x']
      rfl (by decide) rfl (by simp)⟩

theorem count_eq_one_of_mem_lawful {α : Type} [BEq α] [LawfulBEq α] {a : α} {l : List α}
    (hnd : l.Nodup) (h : a ∈ l) : l.count a = 1 := by
  induction l with
  | nil => cases h
  | cons b bs ih =>
    rw [List.count_cons]
    rcases List.mem_cons.mp h with he | hm
    · subst he
      rcases List.nodup_cons.mp hnd with ⟨hnb, _⟩
      rw [List.count_eq_zero_of_not_mem hnb]
      simp
    · have hb : ¬ (b == a) = true := by
        rcases List.nodup_cons.mp hnd with ⟨hnb, _⟩
        simp
        intro e
        subst e
        exact hnb hm
      rw [if_neg hb, ih (List.nodup_cons.mp hnd).2 hm]

theorem addTagFold (p : Post) (ts : List Str) :
    ∀ (m : Str → List Post) (t : Str),
    (ts.foldl (addTag p) m) t = m t ++ List.replicate (ts.count t) p := by
  induction ts with
  | nil => intro m t; simp
  | cons t2 ts ih =>
    intro m t
    rw [List.foldl_cons, ih]
    by_cases h : t2 = t
    · subst h
      rw [List.count_cons]
      simp [addTag, List.replicate_succ]
    · rw [List.count_cons]
      have : ¬ (t2 == t) = true := by simpa using h
      rw [if_neg this]
      simp [addTag]
      exact fun e => h e.symm

theorem insertPost_apply (m : Str → List Post) (p : Post) (t : Str) :
    insertPost m p t = m t ++ List.replicate (p.tags.count t) p :=
  addTagFold p p.tags m t

theorem tagGroupsFold (posts : List Post) :
    ∀ (m : Str → List Post) (t : Str),
    (posts.foldl insertPost m) t = m t ++ (posts.foldl insertPost (fun _ => [])) t := by
  induction posts with
  | nil => intro m t; simp
  | cons p ps ih =>
    intro m t
    rw [List.foldl_cons, List.foldl_cons, ih, insertPost_apply]
    conv_rhs => rw [ih]
    rw [insertPost_apply]
    simp

theorem tagGroups_cons (p : Post) (ps : List Post) (t : Str) :
    tagGroups (p :: ps) t = List.replicate (p.tags.count t) p ++ tagGroups ps t := by
  unfold tagGroups
  rw [List.foldl_cons, tagGroupsFold, insertPost_apply]
  simp

theorem tagGroups_eq_filter (posts : List Post) (t : Str)
    (h : ∀ p ∈ posts, p.tags.Nodup) :
    tagGroups posts t = posts.filter (fun p => decide (t ∈ p.tags)) := by
  induction posts with
  | nil => rfl
  | cons p ps ih =>
    rw [tagGroups_cons, ih (fun q hq => h q (by simp [hq])), List.filter_cons]
    by_cases hm : t ∈ p.tags
    · rw [count_eq_one_of_mem_lawful (h p (by simp)) hm]
      rw [if_pos (by simpa using hm)]
      rfl
    · rw [List.count_eq_zero_of_not_mem hm]
      rw [if_neg (by simpa using hm)]
      rfl

/-- C1 (amended): the generateTags grouping appends a Post to a tag's
group once per occurrence of the tag in its tag list, so for Posts whose
tag lists are duplicate-free the grouping is exactly the filter of the
collection: each Post carrying tag T appears in the T-group exactly
once, a Post appears in the group of T exactly when T is among its tags
(so a Post with N distinct tags appears in N groups), and each group is
a subsequence of the collection, preserving reading order. -/
theorem generateTags_grouping (posts : List Post) (t : Str)
    (htags : ∀ p ∈ posts, p.tags.Nodup) (hnd : posts.Nodup) :
    tagGroups posts t = posts.filter (fun p => decide (t ∈ p.tags)) ∧
    (∀ p ∈ posts, (tagGroups posts t).count p = if t ∈ p.tags then 1 else 0) ∧
    (tagGroups posts t).Sublist posts ∧
    (∀ (p : Post) (t2 : Str), p ∈ tagGroups posts t2 ↔ p ∈ posts ∧ t2 ∈ p.tags) := by
  have heq := tagGroups_eq_filter posts t htags
  refine ⟨heq, ?_, ?_, ?_⟩
  · intro p hp
    rw [heq]
    by_cases hm : t ∈ p.tags
    · rw [if_pos hm]
      rw [List.count_filter (by simpa using hm)]
      exact List.count_eq_one_of_mem hnd hp
    · rw [if_neg hm]
      refine List.count_eq_zero_of_not_mem ?_
      intro hmem
      exact hm (by simpa using (List.mem_filter.mp hmem).2)
  · rw [heq]; exact List.filter_sublist posts
  · intro p t2
    rw [tagGroups_eq_filter posts t2 htags]
    constructor
    · intro hmem
      obtain ⟨h1, h2⟩ := List.mem_filter.mp hmem
      exact ⟨h1, by simpa using h2⟩
    · intro ⟨h1, h2⟩
      exact List.mem_filter.mpr ⟨h1, by simpa using h2⟩

/-- C1 counterexample: a Post whose tag list repeats the tag a appears
twice, not once, in the group for a. -/
theorem generateTags_grouping_cex :
    ['a'] ∈ (Post.mk [] [] [['a'], ['a']] [] [] []).tags ∧
    (tagGroups [Post.mk [] [] [['a'], ['a']] [] [] []] ['a']).count
      (Post.mk [] [] [['a'], ['a']] [] [] []) = 2 := by decide

theorem generateTags_grouping_witness :
    tagGroups [Post.mk [] [] [['a']] [] [] [], Post.mk ['x'] [] [['a'], ['b']] [] [] []] ['a'] =
      List.filter (fun p => decide (['a'] ∈ p.tags))
        [Post.mk [] [] [['a']] [] [] [], Post.mk ['x'] [] [['a'], ['b']] [] [] []] ∧
    (tagGroups [Post.mk [] [] [['a']] [] [] [], Post.mk ['x'] [] [['a'], ['b']] [] [] []] ['a']).Sublist
      [Post.mk [] [] [['a']] [] [] [], Post.mk ['x'] [] [['a'], ['b']] [] [] []] :=
  ⟨(generateTags_grouping
      [Post.mk [] [] [['a']] [] [] [], Post.mk ['x'] [] [['a'], ['b']] [] [] []] ['a']
      (by decide) (by decide)).1,
   (generateTags_grouping
      [Post.mk [] [] [['a']] [] [] [], Post.mk ['x'] [] [['a'], ['b']] [] [] []] ['a']
      (by decide) (by decide)).2.2.1⟩

/-- C10: when the directory listing is sorted by name (the documented
contract of the directory enumeration) and every selected file reads
successfully, the Post collection follows that sorted filename order: it
is the image, in order, of the sorted selected entries, whose names stay
sorted under the .md filter, and every tag group is a subsequence of the
collection, hence also in filename order. -/
theorem reader_order (dir : Str) (rp : Str → Except Str Post)
    (entries : List DirEntry) (postOf : DirEntry → Post)
    (hsorted : (entries.map DirEntry.name).Pairwise (· < ·))
    (hok : ∀ f ∈ entries, selectEntry f = true → rp (filePath dir f.name) = .ok (postOf f))
    (htags : ∀ f ∈ entries, (postOf f).tags.Nodup) :
    readPosts dir (.ok entries) rp = .ok ((entries.filter selectEntry).map postOf) ∧
    ((entries.filter selectEntry).map DirEntry.name).Pairwise (· < ·) ∧
    (∀ t, (tagGroups ((entries.filter selectEntry).map postOf) t).Sublist
        ((entries.filter selectEntry).map postOf)) := by
  refine ⟨?_, ?_, ?_⟩
  · show readPostsLoop dir rp entries [] = _
    rw [readPostsLoop_ok dir rp postOf entries [] hok]
    simp
  · exact List.Pairwise.sublist
      (List.Sublist.map DirEntry.name (List.filter_sublist entries)) hsorted
  · intro t
    have hnd : ∀ p ∈ (entries.filter selectEntry).map postOf, p.tags.Nodup := by
      intro p hp
      obtain ⟨f, hf, rfl⟩ := List.mem_map.mp hp
      exact htags f (List.mem_of_mem_filter hf)
    rw [tagGroups_eq_filter _ t hnd]
    exact List.filter_sublist _

theorem reader_order_witness :
    readPosts postsDir (.ok [⟨"a.md".toList, false⟩, ⟨"b.md".toList, false⟩])
      (fun _ => .ok (Post.mk [] [] [] [] [] [])) =
      .ok [Post.mk [] [] [] [] [] [], Post.mk [] [] [] [] [] []] ∧
    (tagGroups [Post.mk [] [] [] [] [] [], Post.mk [] [] [] [] [] []] ['a']).Sublist
      [Post.mk [] [] [] [] [] [], Post.mk [] [] [] [] [] []] := by
  have h := reader_order postsDir (fun _ => .ok (Post.mk [] [] [] [] [] []))
    [⟨"a.md".toList, false⟩, ⟨"b.md".toList, false⟩] (fun _ => Post.mk [] [] [] [] [] [])
    (by decide) (fun _ _ _ => rfl) (by intro f _; simp)
  exact ⟨by rw [h.1]; rfl, h.2.2 ['a']⟩

/-- C7: a generation run is a pure function of the content files, the
base URL and the templates: it only replaces the output documents,
leaving the content files untouched, so an immediately repeated run
returns the same state unchanged; two runs over equal content files
produce identical output document sets; and the index document is a
function of the full Post collection and the base URL alone. -/
theorem generate_idempotent (md : Str → Str) (tmpl : Templates) (baseURL : Str)
    (s s' : SiteState) (h : generateRun md tmpl baseURL s = .ok s') :
    generateRun md tmpl baseURL s' = .ok s' ∧
    s'.contentFiles = s.contentFiles ∧
    (∀ (s2 s2' : SiteState), s2.contentFiles = s.contentFiles →
      generateRun md tmpl baseURL s2 = .ok s2' → s2'.outputFiles = s'.outputFiles) ∧
    (∀ posts, (outIndexName, tmpl.renderIndex posts baseURL) ∈ composeDocs tmpl baseURL posts) := by
  unfold generateRun at h
  rcases hp : postsOfLoop md baseURL s.contentFiles [] with e | posts
  · rw [hp] at h; cases h
  · rw [hp] at h
    injection h with h
    subst h
    refine ⟨?_, rfl, ?_, ?_⟩
    · have hcf : ({ s with outputFiles := composeDocs tmpl baseURL posts } :
          SiteState).contentFiles = s.contentFiles := rfl
      unfold generateRun
      rw [hcf, hp]
    · intro s2 s2' hcf h2
      unfold generateRun at h2
      rw [hcf, hp] at h2
      injection h2 with h2
      rw [← h2]
    · intro posts2
      unfold composeDocs
      simp [List.mem_append]

theorem generate_idempotent_witness :
    generateRun (fun s => s)
      ⟨fun _ => [], fun _ _ => [], fun _ _ _ => []⟩ ['b']
      ⟨[], [(outIndexName, [])]⟩ =
      .ok ⟨[], [(outIndexName, [])]⟩ :=
  (generate_idempotent (fun s => s) ⟨fun _ => [], fun _ _ => [], fun _ _ _ => []⟩ ['b']
    ⟨[], []⟩ ⟨[], [(outIndexName, [])]⟩ rfl).1
